import Mathlib

/-!
Verification of the fs-box-sync core (src/BoxAPI.ts, src/BoxDrive.ts) against its
natural-language specification.

The development shallowly embeds the relevant TypeScript code:
* the chunked upload loop of `BoxAPI.uploadChunks` (BoxAPI.ts lines 658-707),
* the path selection of `BoxAPI.uploadFile` (lines 594-605),
* the retry executor `BoxAPI.withRetry` (lines 415-452) together with
  `isNetworkError` (388-401) and `enhanceError` (457-491),
* the token refresh state update of `BoxAPI.refreshAccessToken` (308-350),
  the 401 invalidation of `invalidateAndRefresh` (356-383) and the refresh
  trigger condition of `checkToken` (214-253),
* the single-flight structure of `checkToken` as a small-step interleaving
  system over caller program counters,
* the sync polling loops `BoxDrive.pollSync` (169-196) and
  `BoxDrive.smartSync` (201-251) and the strategy dispatch of
  `BoxDrive.waitForSync` (147-164) / `forceSync` (257-278).

JavaScript numbers are modelled as `Nat` (all quantities involved — sizes,
offsets, timestamps, delays — are non-negative integers in every execution the
claims quantify over); file contents are `List Nat` (byte lists); thrown
`Error` objects are a `JsError` structure; asynchronous operations are
modelled by explicit outcome sequences or by a step relation.
-/

namespace FsBoxSync

/-! ## String helpers (substring / starts-with tests used to state claims) -/

/-- Boolean starts-with test on character lists: `charsStartsWith s p` is true
iff `p` is a prefix of `s`. -/
def charsStartsWith : List Char → List Char → Bool
  | _, [] => true
  | [], _ :: _ => false
  | a :: as, b :: bs => a == b && charsStartsWith as bs

/-- Boolean substring test on character lists: `charsContain s p` is true iff
`p` occurs contiguously inside `s`. -/
def charsContain : List Char → List Char → Bool
  | [], p => charsStartsWith [] p
  | s@(_ :: rest), p => charsStartsWith s p || charsContain rest p

/-- Starts-with test on strings (`s` starts with `p`). -/
def strStartsWith (s p : String) : Bool :=
  charsStartsWith s.data p.data

/-- Substring test on strings (`s` contains `p`). -/
def strContains (s p : String) : Bool :=
  charsContain s.data p.data

/-! ## Chunked upload engine: `uploadChunks` (BoxAPI.ts 658-707)

The source loop is

    let offset = 0;
    while (offset < fileSize) {
      const end = Math.min(offset + partSize, fileSize);
      ... read bytes [offset, end), hash them, upload them ...
      parts.push(res.data.part);        // one part per iteration
      offset = end;
    }

`chunkLoop partSize fileSize offset` returns the `(offset, size)` pair of each
part produced from loop state `offset` on. The source loop does not terminate
when `partSize = 0` (the server-assigned part size is always positive); the
embedding adds `0 < partSize` to the loop guard so that the function is total,
which agrees with the source whenever `partSize > 0`. The loop is encoded
structurally with a fuel argument (each iteration advances `offset` by at
least one, so `fileSize - offset` units of fuel always suffice);
`chunkLoop_unfold` below recovers the literal loop-step equation. -/

def chunkLoopGo (partSize fileSize : Nat) : Nat → Nat → List (Nat × Nat)
  | 0, _ => []
  | fuel + 1, offset =>
    if offset < fileSize ∧ 0 < partSize then
      (offset, min (offset + partSize) fileSize - offset) ::
        chunkLoopGo partSize fileSize fuel (min (offset + partSize) fileSize)
    else
      []

/-- Part list of the `uploadChunks` while-loop started at loop state
`offset`. -/
def chunkLoop (partSize fileSize offset : Nat) : List (Nat × Nat) :=
  chunkLoopGo partSize fileSize (fileSize - offset) offset

/-- The `(offset, size)` pairs of the parts produced by `uploadChunks`
(BoxAPI.ts 658-707) for a file of `fileSize` bytes and server-assigned part
size `partSize`. -/
def uploadChunksParts (partSize fileSize : Nat) : List (Nat × Nat) :=
  chunkLoop partSize fileSize 0

/-- The byte slices fed to the per-part upload and to the running whole-file
hash, in loop order: the iteration whose part is `(offset, size)` reads the
byte range `[offset, offset + size)` of the file via `fs.createReadStream`
with inclusive bounds `start = offset`, `end = end - 1` (BoxAPI.ts 670-686),
i.e. `(file.drop offset).take size`. -/
def chunkSlices (partSize : Nat) (file : List Nat) : List (List Nat) :=
  (chunkLoop partSize file.length 0).map (fun p => (file.drop p.1).take p.2)

/-- The byte sequence accumulated by the running whole-file hash
(`fileHash.update(chunk)` once per loop iteration, BoxAPI.ts 666 and 688):
the concatenation, in loop order, of the uploaded slices. The commit-time
digest `fileHash.digest('base64')` (BoxAPI.ts 705) is the SHA-1 of exactly
this byte sequence. -/
def uploadChunksDigestInput (partSize : Nat) (file : List Nat) : List Nat :=
  (chunkSlices partSize file).foldl (fun acc c => acc ++ c) []

/-! ## `uploadFile` path selection (BoxAPI.ts 594-605) -/

/-- Threshold `const FILE_SIZE_THRESHOLD = 20 * 1024 * 1024; // 20MB`
(BoxAPI.ts 597). -/
def FILE_SIZE_THRESHOLD : Nat := 20 * 1024 * 1024

/-- Which upload path `uploadFile` takes. -/
inductive UploadMethod where
  | chunked
  | normal
deriving DecidableEq, Repr

/-- Path selection of `uploadFile` (BoxAPI.ts 599-602):
`fileSize > FILE_SIZE_THRESHOLD ? chunkedUpload(...) : normalUpload(...)`. -/
def uploadFileMethod (fileSize : Nat) : UploadMethod :=
  if FILE_SIZE_THRESHOLD < fileSize then .chunked else .normal

/-! ## Errors and the resilient request executor `withRetry`
(BoxAPI.ts 388-491)

Thrown JavaScript errors are modelled by `JsError`: `isAxon` is
`error instanceof AxonError`, `status` is `AxonError.status`, `message` is
`Error.message`, and `dataMessage` is `AxonError.responseData?.message`.
Every thrown value the modelled code paths can produce is an `Error`
instance, so the `String(error)` wrapping branch of `enhanceError`
(BoxAPI.ts 490) is not reachable in the model. -/

structure JsError where
  isAxon : Bool
  status : Option Nat
  message : String
  dataMessage : Option String
deriving DecidableEq, Repr

/-- Lower-casing of a string (`message.toLowerCase()`). -/
def strToLower (s : String) : String :=
  String.mk (s.data.map Char.toLower)

/-- Model of `new Error(msg)`. -/
def mkError (msg : String) : JsError :=
  ⟨false, none, msg, none⟩

/-- Transient-network test `isNetworkError` (BoxAPI.ts 388-401): the
lower-cased message contains one of six substrings. -/
def isNetworkError (e : JsError) : Bool :=
  strContains (strToLower e.message) "socket hang up" ||
  strContains (strToLower e.message) "econnreset" ||
  strContains (strToLower e.message) "etimedout" ||
  strContains (strToLower e.message) "econnrefused" ||
  strContains (strToLower e.message) "enotfound" ||
  strContains (strToLower e.message) "network"

/-- JavaScript `m || d` for an optional string `m`: the empty string is falsy,
so it also falls back to the default. -/
def jsStringOr (m : Option String) (d : String) : String :=
  match m with
  | some s => if s = "" then d else s
  | none => d

/-- JavaScript truthiness-and-comparison `status && status >= 500`
(BoxAPI.ts 477): a missing (or zero) status is falsy. -/
def statusAtLeast500 (st : Option Nat) : Bool :=
  match st with
  | some s => decide (500 ≤ s)
  | none => false

/-- Rendering of the status in the 5xx message (`${status}`). -/
def statusToString (st : Option Nat) : String :=
  match st with
  | some s => toString s
  | none => ""

/-- Error enrichment `enhanceError` (BoxAPI.ts 457-491). The if/else-if chain
tests, in order, status 401, 404, 409, 403, then `status && status >= 500`;
any other error is returned unchanged (the `error instanceof Error` branch,
line 485-487). -/
def enhanceError (e : JsError) : JsError :=
  if e.isAxon = true then
    if e.status = some 401 then
      mkError "Authentication failed. Please check your credentials or re-authenticate."
    else if e.status = some 404 then
      mkError ("Resource not found: " ++
        jsStringOr e.dataMessage "The requested item does not exist")
    else if e.status = some 409 then
      mkError ("Conflict: " ++
        jsStringOr e.dataMessage "An item with this name already exists")
    else if e.status = some 403 then
      mkError ("Permission denied: " ++
        jsStringOr e.dataMessage "You do not have access to this resource")
    else if statusAtLeast500 e.status = true then
      mkError ("Box server error (" ++ statusToString e.status ++ "): " ++
        jsStringOr e.dataMessage "Please try again later")
    else e
  else e

/-- The semantic category the spec says an enriched message must state, as a
function of the failure (none when the status carries no category). -/
def semanticCategory (e : JsError) : Option String :=
  if e.isAxon = true then
    if e.status = some 401 then some "Authentication failed"
    else if e.status = some 404 then some "Resource not found"
    else if e.status = some 409 then some "Conflict"
    else if e.status = some 403 then some "Permission denied"
    else if statusAtLeast500 e.status = true then some "Box server error"
    else none
  else none

/-- Result of one invocation of an asynchronous operation: resolved value or
thrown error. -/
inductive Outcome (T : Type) where
  | ok (t : T)
  | err (e : JsError)
deriving DecidableEq, Repr

/-- How one `withRetry` execution ends. `thrownEnhanced` is the final
`throw this.enhanceError(lastError)` (BoxAPI.ts 451); `thrownRaw` is an error
propagating out of the 401-recovery block (BoxAPI.ts 426-433) — an exception
thrown inside the `catch` clause is not caught by the same `try`, so it leaves
`withRetry` without passing through `enhanceError`. -/
inductive RetryOutcome (T : Type) where
  | ok (t : T)
  | thrownEnhanced (e : JsError)
  | thrownRaw (e : JsError)
deriving DecidableEq, Repr

/-- Trace of one `withRetry` execution: the final outcome, the backoff delays
slept (in order), and how many times `operation()` was invoked. -/
structure RetryRun (T : Type) where
  outcome : RetryOutcome T
  delays : List Nat
  calls : Nat
deriving DecidableEq, Repr

/-- The 401-recovery block of `withRetry` (BoxAPI.ts 425-434):
`await this.invalidateAndRefresh(); return await operation();` inside the
`catch` clause. `refresh` is the outcome of `invalidateAndRefresh`; a failure
of the recovery itself, or of the retried operation, propagates raw. The
reentrancy guard `isRetrying` is `false` at every loop iteration of a
top-level call (it is reset by the `finally`), so a 401 always enters this
block. -/
def with401Recovery {T : Type} (ops : Nat → Outcome T) (refresh : Outcome Unit)
    (callIdx : Nat) : RetryRun T :=
  match refresh with
  | .err re => ⟨.thrownRaw re, [], 1⟩
  | .ok _ =>
    match ops (callIdx + 1) with
    | .ok t => ⟨.ok t, [], 2⟩
    | .err e2 => ⟨.thrownRaw e2, [], 2⟩

/-- The retry loop of `withRetry` (BoxAPI.ts 415-452).
`ops k` is the outcome of the `k`-th invocation of `operation()` (counting
from 0 across the whole execution). The loop variable is encoded as
remaining fuel: at loop iteration `attempt`, `fuel = maxRetries - attempt`,
so the backoff-continue guard `attempt < maxRetries` is `0 < fuel` and the
inserted delay `retryDelay * 2 ** attempt` is
`retryDelay * 2 ^ (maxRetries - fuel)`. `calls` counts `operation()`
invocations from the current iteration on. -/
def withRetryGo {T : Type} (maxRetries retryDelay : Nat) (ops : Nat → Outcome T)
    (refresh : Outcome Unit) : Nat → Nat → RetryRun T
  | 0, callIdx =>
    match ops callIdx with
    | .ok t => ⟨.ok t, [], 1⟩
    | .err e =>
      if e.isAxon = true ∧ e.status = some 401 then
        with401Recovery ops refresh callIdx
      else
        ⟨.thrownEnhanced (enhanceError e), [], 1⟩
  | fuel + 1, callIdx =>
    match ops callIdx with
    | .ok t => ⟨.ok t, [], 1⟩
    | .err e =>
      if e.isAxon = true ∧ e.status = some 401 then
        with401Recovery ops refresh callIdx
      else if isNetworkError e = true then
        let rest := withRetryGo maxRetries retryDelay ops refresh fuel (callIdx + 1)
        ⟨rest.outcome, retryDelay * 2 ^ (maxRetries - (fuel + 1)) :: rest.delays,
          rest.calls + 1⟩
      else
        ⟨.thrownEnhanced (enhanceError e), [], 1⟩

/-- One full `withRetry` execution (BoxAPI.ts 415-452), started at attempt 0
with the reentrancy guard clear. -/
def withRetry {T : Type} (maxRetries retryDelay : Nat) (ops : Nat → Outcome T)
    (refresh : Outcome Unit) : RetryRun T :=
  withRetryGo maxRetries retryDelay ops refresh maxRetries 0

/-- Concrete Axon 401 failure used in counterexamples. -/
def axon401ce : JsError :=
  ⟨true, some 401, "Request failed with status code 401", none⟩

/-- Concrete Axon 404 failure used in counterexamples. -/
def axon404ce : JsError :=
  ⟨true, some 404, "Request failed with status code 404", some "no such folder"⟩

/-- Concrete transient network failure used in witnesses. -/
def netErrCe : JsError := ⟨false, none, "socket hang up", none⟩

/-! ## Wrapping structure of the chunked upload (BoxAPI.ts 626-719) -/

/-- One outbound request of the chunked-upload pipeline. -/
inductive UploadCall where
  | sessionCreate
  | partUpload (offset : Nat)
  | commit
deriving DecidableEq, Repr

/-- Trace of the outbound requests of `chunkedUpload` (BoxAPI.ts 626-637), in
order, each paired with whether the source wraps that request in
`this.withRetry`: `createUploadSession` wraps its POST in `this.withRetry`
(line 640); `uploadChunks` issues each part PUT directly, with no `withRetry`
wrapper (line 692); `commitSession` wraps its POST in `this.withRetry`
(line 710). -/
def chunkedUploadTrace (partSize fileSize : Nat) : List (UploadCall × Bool) :=
  ((UploadCall.sessionCreate, true) ::
    (uploadChunksParts partSize fileSize).map
      (fun p => (UploadCall.partUpload p.1, false))) ++
  [(UploadCall.commit, true)]

/-! ## Token lifecycle (BoxAPI.ts 214-383) -/

/-- Credential state owned by the token lifecycle manager: the current
access token, refresh token and absolute expiry timestamp `expiredAt`
(BoxAPI.ts 23-25; persisted as `expiresAt`). -/
structure TokenCreds where
  accessToken : String
  refreshToken : String
  expiredAt : Nat
deriving DecidableEq, Repr

/-- Condition under which `checkToken` (BoxAPI.ts 236-242) initiates a
refresh-token exchange (`refreshAccessToken` rather than the provider-based
`forgeRefreshToken`): a refresh token is present and the current wall-clock
time has reached `expiredAt`. -/
def checkTokenStartsRefreshExchange (st : TokenCreds) (now : Nat) : Prop :=
  st.refreshToken ≠ "" ∧ st.expiredAt ≤ now

/-- State update of a successful `refreshAccessToken` exchange
(BoxAPI.ts 321-324): both tokens are replaced and
`expiredAt := Date.now() + expires_in * 1000`, where `respNow` is
`Date.now()` at response time. -/
def refreshAccessTokenSuccess (st : TokenCreds) (respNow expiresIn : Nat)
    (newAccess newRefresh : String) : TokenCreds :=
  ⟨newAccess, newRefresh, respNow + expiresIn * 1000⟩

/-- 401 invalidation `invalidateAndRefresh` (BoxAPI.ts 360-361): the access
token is cleared and `expiredAt` is reset to 0 before the refresh attempt. -/
def invalidateReset (st : TokenCreds) : TokenCreds :=
  ⟨"", st.refreshToken, 0⟩

/-! ## Single-flight token refresh (`checkToken`, BoxAPI.ts 229-252)

`checkToken` coordinates concurrent callers through the instance field
`tokenRefreshPromise`: a caller that finds it non-null awaits it (line 230)
and returns once the token is valid (line 231-233); a caller that finds it
null while the token is expired installs a single refresh operation into it
(lines 236-244), awaits it, persists (line 248) and finally clears the field
(line 250). The model is the cooperative (run-to-completion between awaits)
interleaving of `n` callers that all enter `checkToken` while the token is
expired, in the scenario the claim describes: credentials and a refresh
token are present, the startup storage load has completed, and the refresh
exchange succeeds with `expires_in > 0` (so the token is valid from the
exchange response on). Caller program counters:

* `entry` — about to run lines 229-244: the null test of
  `tokenRefreshPromise` and, when it is null, the expiry test and the
  synchronous start of `refreshAccessToken()` (which issues the exchange
  request before its first await) form one atomic segment — no suspension
  point separates them;
* `refreshing` — installed the promise; awaiting the exchange response;
* `postRefresh` — exchange succeeded: tokens and `expiredAt` updated and the
  promise resolved; awaiting `saveToStorage`;
* `waiting` — found a pending promise and awaits it (wakes once the promise
  has resolved, i.e. once the token is valid in this scenario);
* `done` — returned from `checkToken`. -/

inductive CallerPC where
  | entry
  | refreshing
  | postRefresh
  | waiting
  | done
deriving DecidableEq, Repr

/-- Shared state of the interleaving: each caller's program counter, whether
`tokenRefreshPromise` is non-null, whether the token is currently valid
(refresh token present and `Date.now() < expiredAt`), and how many
refresh-exchange requests have been issued so far. -/
structure SFState (n : Nat) where
  pc : Fin n → CallerPC
  promiseActive : Bool
  tokenValid : Bool
  exchanges : Nat

/-- Pointwise update of one caller's program counter. -/
def setPC {n : Nat} (pc : Fin n → CallerPC) (i : Fin n) (v : CallerPC) :
    Fin n → CallerPC :=
  fun j => if j = i then v else pc j

/-- One interleaving step of the `checkToken` single-flight protocol. -/
inductive SFStep {n : Nat} : SFState n → SFState n → Prop where
  | entryWait (s : SFState n) (i : Fin n) (hpc : s.pc i = CallerPC.entry)
      (hp : s.promiseActive = true) :
      SFStep s ⟨setPC s.pc i CallerPC.waiting, s.promiseActive, s.tokenValid,
        s.exchanges⟩
  | entryValid (s : SFState n) (i : Fin n) (hpc : s.pc i = CallerPC.entry)
      (hp : s.promiseActive = false) (hv : s.tokenValid = true) :
      SFStep s ⟨setPC s.pc i CallerPC.done, s.promiseActive, s.tokenValid,
        s.exchanges⟩
  | entryRefresh (s : SFState n) (i : Fin n) (hpc : s.pc i = CallerPC.entry)
      (hp : s.promiseActive = false) (hv : s.tokenValid = false) :
      SFStep s ⟨setPC s.pc i CallerPC.refreshing, true, s.tokenValid,
        s.exchanges + 1⟩
  | refreshOk (s : SFState n) (i : Fin n)
      (hpc : s.pc i = CallerPC.refreshing) :
      SFStep s ⟨setPC s.pc i CallerPC.postRefresh, s.promiseActive, true,
        s.exchanges⟩
  | saveDone (s : SFState n) (i : Fin n)
      (hpc : s.pc i = CallerPC.postRefresh) :
      SFStep s ⟨setPC s.pc i CallerPC.done, false, s.tokenValid, s.exchanges⟩
  | waitWake (s : SFState n) (i : Fin n) (hpc : s.pc i = CallerPC.waiting)
      (hv : s.tokenValid = true) :
      SFStep s ⟨setPC s.pc i CallerPC.done, s.promiseActive, s.tokenValid,
        s.exchanges⟩

/-- Initial state: every caller enters `checkToken` while the token is
expired, no refresh pending. -/
def SFInit (n : Nat) : SFState n :=
  ⟨fun _ => CallerPC.entry, false, false, 0⟩

/-- States reachable by interleaving the callers. -/
inductive SFReach {n : Nat} : SFState n → Prop where
  | init : SFReach (SFInit n)
  | step (s t : SFState n) (hs : SFReach s) (hst : SFStep s t) : SFReach t

/-- Inductive invariant of the single-flight protocol. -/
def SFInv {n : Nat} (s : SFState n) : Prop :=
  s.exchanges ≤ 1 ∧
  (s.exchanges = 0 → s.promiseActive = false ∧ s.tokenValid = false) ∧
  (s.exchanges = 1 → s.promiseActive = true ∨ s.tokenValid = true) ∧
  (s.tokenValid = true → s.exchanges = 1) ∧
  (∀ i, s.pc i ≠ CallerPC.entry → s.exchanges = 1) ∧
  (∀ i, s.pc i = CallerPC.postRefresh → s.tokenValid = true)

/-! ## Local sync verification (BoxDrive.ts 147-278)

The polling loops check `Date.now() - startTime < this.syncTimeout` before
each filesystem observation and sleep `this.syncInterval` milliseconds
between observations, so observation number `k` (0-based) happens at elapsed
time `k * interval` (observations themselves idealized as instantaneous).
`obs k` is the filesystem state seen by observation `k`. The loop is encoded
with fuel `timeout + 1`: since the constructor defaults make
`interval ≥ 1` (`config?.syncInterval || 1000`, a zero is falsy), the loop
body runs at most `timeout` times, and when the fuel would run out the
guard `k * interval < timeout` is already false, so the fuel-exhaustion
result coincides with the loop's timeout result. JavaScript renders
`timeout / 1000` in float division; the model prints the Nat quotient —
both contain the word "Timeout", which is all the claims inspect. -/

/-- One observation of the local filesystem (`fs.statSync(localPath)`): the
path is absent (ENOENT), present with a size and mtime, or the stat fails
with a non-ENOENT error (logged and treated as not-synced-yet,
BoxDrive.ts 182-186 / 237-241). -/
inductive FsObs where
  | absent
  | present (size : Nat) (mtime : Nat)
  | errOther (msg : String)
deriving DecidableEq, Repr

/-- Sync verification result (types.ts `SyncStatus`). -/
structure SyncStatus where
  synced : Bool
  localPath : String
  error : Option String
  lastModified : Option Nat
  size : Option Nat
deriving DecidableEq, Repr

/-- Timeout value of `pollSync` (BoxDrive.ts 191-195). -/
def pollTimeoutStatus (timeout : Nat) (localPath : String) : SyncStatus :=
  ⟨false, localPath,
    some ("Timeout: File did not appear within " ++ toString (timeout / 1000) ++
      " seconds"), none, none⟩

/-- The `pollSync` loop (BoxDrive.ts 169-196): plain existence check. -/
def pollSyncGo (timeout interval : Nat) (obs : Nat → FsObs)
    (localPath : String) : Nat → Nat → SyncStatus
  | 0, _ => pollTimeoutStatus timeout localPath
  | fuel + 1, k =>
    if k * interval < timeout then
      match obs k with
      | FsObs.present sz mt => ⟨true, localPath, none, some mt, some sz⟩
      | _ => pollSyncGo timeout interval obs localPath fuel (k + 1)
    else
      pollTimeoutStatus timeout localPath

/-- `pollSync` (BoxDrive.ts 169-196). -/
def pollSync (timeout interval : Nat) (obs : Nat → FsObs)
    (localPath : String) : SyncStatus :=
  pollSyncGo timeout interval obs localPath (timeout + 1) 0

/-- Timeout value of `smartSync` (BoxDrive.ts 246-250). -/
def smartTimeoutStatus (timeout : Nat) (localPath : String) : SyncStatus :=
  ⟨false, localPath,
    some ("Timeout: File did not fully sync within " ++ toString (timeout / 1000) ++
      " seconds"), none, none⟩

/-- The `smartSync` loop (BoxDrive.ts 213-250): for a file with a known cloud
size, an observation counts as synced only when the sizes match exactly
(`stats.size === cloudSize`, line 219); otherwise the loop keeps polling
("file exists but wrong size — still syncing"). For folders (or an undefined
cloud size) existence alone suffices (lines 228-236). -/
def smartSyncGo (timeout interval : Nat) (isFile : Bool)
    (cloudSize : Option Nat) (obs : Nat → FsObs) (localPath : String) :
    Nat → Nat → SyncStatus
  | 0, _ => smartTimeoutStatus timeout localPath
  | fuel + 1, k =>
    if k * interval < timeout then
      match obs k with
      | FsObs.present sz mt =>
        if isFile = true ∧ cloudSize ≠ none then
          if some sz = cloudSize then
            ⟨true, localPath, none, some mt, some sz⟩
          else
            smartSyncGo timeout interval isFile cloudSize obs localPath fuel (k + 1)
        else
          ⟨true, localPath, none, some mt, some sz⟩
      | _ => smartSyncGo timeout interval isFile cloudSize obs localPath fuel (k + 1)
    else
      smartTimeoutStatus timeout localPath

/-- `smartSync` (BoxDrive.ts 201-251): for a file, the remote size is fetched
exactly once, up front, before the loop (`this.api.getFileInfo(id)`,
lines 206-211); folders skip the fetch. Returns the sync result together
with the number of `getFileInfo` calls performed. -/
def smartSync (timeout interval : Nat) (isFile : Bool) (remoteSize : Nat)
    (obs : Nat → FsObs) (localPath : String) : SyncStatus × Nat :=
  (smartSyncGo timeout interval isFile
      (if isFile then some remoteSize else none) obs localPath (timeout + 1) 0,
    if isFile then 1 else 0)

/-- Sync strategies (types.ts). -/
inductive SyncStrategy where
  | poll
  | smart
  | force
deriving DecidableEq, Repr

/-- Strategy dispatch of `waitForSync` (BoxDrive.ts 154-163) plus the `force`
preamble (BoxDrive.ts 257-277): `forceSync` first checks that the Box Drive
process is running and returns a failure value immediately if not; its
best-effort `readdirSync` nudge of the parent directory does not affect the
model state; it then falls back to `smartSync`. -/
def waitForSync (strategy : SyncStrategy) (timeout interval : Nat)
    (isFile : Bool) (remoteSize : Nat) (isRunning : Bool)
    (obs : Nat → FsObs) (localPath : String) : SyncStatus :=
  match strategy with
  | SyncStrategy.poll => pollSync timeout interval obs localPath
  | SyncStrategy.smart =>
    (smartSync timeout interval isFile remoteSize obs localPath).1
  | SyncStrategy.force =>
    if isRunning then
      (smartSync timeout interval isFile remoteSize obs localPath).1
    else
      ⟨false, localPath, some "Box Drive is not running", none, none⟩

/-- Whether an observation satisfies a strategy's sync condition: `poll`
needs existence; `smart`/`force` on a file need existence at exactly the
remote size; folders need existence. -/
def syncCondMet (strategy : SyncStrategy) (isFile : Bool) (remoteSize : Nat)
    (o : FsObs) : Bool :=
  match o with
  | FsObs.present sz _ =>
    match strategy with
    | SyncStrategy.poll => true
    | _ => if isFile = true then sz == remoteSize else true
  | _ => false

/-- Concrete observation sequence of Scenario D: the local file is first seen
at size 512, then at size 1024. -/
def scenarioDObs : Nat → FsObs :=
  fun k => if k = 0 then FsObs.present 512 0 else FsObs.present 1024 7

/-! ## Theorems -/

theorem charsStartsWith_append (p t : List Char) :
    charsStartsWith (p ++ t) p = true := by
  induction p with
  | nil => cases t <;> rfl
  | cons a as ih => simp [charsStartsWith, ih]

theorem charsContain_of_charsStartsWith {s p : List Char}
    (h : charsStartsWith s p = true) : charsContain s p = true := by
  cases s with
  | nil => simpa [charsContain] using h
  | cons a rest => simp [charsContain, h]

theorem chunkLoopGo_congr (P S : Nat) :
    ∀ f₁ f₂ o, S - o ≤ f₁ → S - o ≤ f₂ →
      chunkLoopGo P S f₁ o = chunkLoopGo P S f₂ o := by
  intro f₁
  induction f₁ with
  | zero =>
    intro f₂ o h₁ h₂
    cases f₂ with
    | zero => rfl
    | succ f₂ =>
      have ho : ¬(o < S ∧ 0 < P) := by omega
      simp [chunkLoopGo, ho]
  | succ f₁ ih =>
    intro f₂ o h₁ h₂
    cases f₂ with
    | zero =>
      have ho : ¬(o < S ∧ 0 < P) := by omega
      simp [chunkLoopGo, ho]
    | succ f₂ =>
      by_cases hc : o < S ∧ 0 < P
      · simp only [chunkLoopGo, if_pos hc]
        refine congrArg _ (ih f₂ (min (o + P) S) ?_ ?_) <;> omega
      · simp [chunkLoopGo, hc]

/-- The while-loop of `uploadChunks`, one-step unfolding: this is the literal
loop body of BoxAPI.ts 668-703 restricted to the part bookkeeping. -/
theorem chunkLoop_unfold (P S o : Nat) :
    chunkLoop P S o =
      if o < S ∧ 0 < P then
        (o, min (o + P) S - o) :: chunkLoop P S (min (o + P) S)
      else
        [] := by
  by_cases hc : o < S ∧ 0 < P
  · have h1 : S - o = (S - o - 1) + 1 := by omega
    rw [chunkLoop, h1]
    simp only [chunkLoopGo, if_pos hc]
    rw [chunkLoop]
    refine congrArg _ ?_
    exact chunkLoopGo_congr P S (S - o - 1) (S - min (o + P) S) (min (o + P) S)
      (by omega) (by omega)
  · cases hf : S - o with
    | zero => simp [chunkLoop, hf, chunkLoopGo, hc]
    | succ f => simp [chunkLoop, hf, chunkLoopGo, hc]

theorem chunkLoop_sum_aux (P S : Nat) (hP : 0 < P) :
    ∀ n o, S - o ≤ n → o ≤ S →
      ((chunkLoop P S o).map (fun p => p.2)).sum = S - o := by
  intro n
  induction n with
  | zero =>
    intro o h1 h2
    have hc : ¬(o < S ∧ 0 < P) := by omega
    rw [chunkLoop_unfold, if_neg hc]
    simp
    omega
  | succ n ih =>
    intro o h1 h2
    rw [chunkLoop_unfold]
    by_cases hc : o < S ∧ 0 < P
    · rw [if_pos hc]
      simp only [List.map_cons, List.sum_cons]
      rw [ih (min (o + P) S) (by omega) (by omega)]
      omega
    · rw [if_neg hc]
      simp
      omega

theorem chunkLoop_length_aux (P S : Nat) (hP : 0 < P) :
    ∀ n o, S - o ≤ n →
      (chunkLoop P S o).length = (S - o + P - 1) / P := by
  intro n
  induction n with
  | zero =>
    intro o h1
    have hc : ¬(o < S ∧ 0 < P) := by omega
    rw [chunkLoop_unfold, if_neg hc]
    have h2 : S - o = 0 := by omega
    rw [h2]
    simp
    exact (Nat.div_eq_of_lt (by omega)).symm
  | succ n ih =>
    intro o h1
    rw [chunkLoop_unfold]
    by_cases hc : o < S ∧ 0 < P
    · rw [if_pos hc]
      simp only [List.length_cons]
      rw [ih (min (o + P) S) (by omega)]
      by_cases hcase : o + P < S
      · have he : min (o + P) S = o + P := by omega
        rw [he]
        have h2 : S - (o + P) + P - 1 = S - o - 1 := by omega
        have h3 : S - o + P - 1 = (S - o - 1) + P := by omega
        rw [h2, h3, Nat.add_div_right _ hP]
      · have he : min (o + P) S = S := by omega
        rw [he]
        have h2 : S - S + P - 1 = P - 1 := by omega
        rw [h2, Nat.div_eq_of_lt (by omega)]
        exact (Nat.div_eq_of_lt_le (by omega) (by omega)).symm
    · rw [if_neg hc]
      have h2 : S - o = 0 := by omega
      rw [h2]
      simp
      exact (Nat.div_eq_of_lt (by omega)).symm

theorem chunkLoop_get?_aux (P S : Nat) (hP : 0 < P) :
    ∀ n o i, S - o ≤ n →
      (chunkLoop P S o).get? i =
        if o + i * P < S then
          some (o + i * P, min (o + (i + 1) * P) S - (o + i * P))
        else
          none := by
  intro n
  induction n with
  | zero =>
    intro o i h1
    have hc : ¬(o < S ∧ 0 < P) := by omega
    rw [chunkLoop_unfold, if_neg hc]
    have h2 : ¬(o + i * P < S) := by omega
    rw [if_neg h2]
    simp
  | succ n ih =>
    intro o i h1
    rw [chunkLoop_unfold]
    by_cases hc : o < S ∧ 0 < P
    · rw [if_pos hc]
      cases i with
      | zero =>
        have h2 : o + 0 * P < S := by omega
        rw [if_pos h2]
        simp only [List.get?]
        have e1 : o + 0 * P = o := by omega
        have e2 : o + (0 + 1) * P = o + P := by omega
        rw [e1, e2]
      | succ i =>
        simp only [List.get?]
        rw [ih (min (o + P) S) i (by omega)]
        by_cases hcase : o + P < S
        · have he : min (o + P) S = o + P := by omega
          rw [he]
          have e1 : o + P + i * P = o + (i + 1) * P := by ring
          have e2 : o + P + (i + 1) * P = o + (i + 1 + 1) * P := by ring
          rw [e1, e2]
        · have he : min (o + P) S = S := by omega
          rw [he]
          have h2 : ¬(S + i * P < S) := by omega
          have h3 : ¬(o + (i + 1) * P < S) := by
            have : P ≤ (i + 1) * P := by
              calc P = 1 * P := by omega
              _ ≤ (i + 1) * P := Nat.mul_le_mul_right P (by omega)
            omega
          rw [if_neg h2, if_neg h3]
    · rw [if_neg hc]
      have h2 : ¬(o + i * P < S) := by omega
      rw [if_neg h2]
      simp

theorem foldl_append_eq (l : List (List Nat)) :
    ∀ init : List Nat, l.foldl (fun acc c => acc ++ c) init = init ++ l.flatten := by
  induction l with
  | nil => intro init; simp
  | cons a l ih => intro init; simp [ih]

theorem chunkSlices_join_aux (P : Nat) (hP : 0 < P) (file : List Nat) :
    ∀ n o, file.length - o ≤ n →
      ((chunkLoop P file.length o).map
          (fun p => (file.drop p.1).take p.2)).flatten = file.drop o := by
  intro n
  induction n with
  | zero =>
    intro o h1
    have hc : ¬(o < file.length ∧ 0 < P) := by omega
    rw [chunkLoop_unfold, if_neg hc]
    rw [List.drop_eq_nil_of_le (by omega)]
    simp
  | succ n ih =>
    intro o h1
    rw [chunkLoop_unfold]
    by_cases hc : o < file.length ∧ 0 < P
    · rw [if_pos hc]
      simp only [List.map_cons, List.flatten]
      rw [ih (min (o + P) file.length) (by omega)]
      have hdd : file.drop (min (o + P) file.length) =
          (file.drop o).drop (min (o + P) file.length - o) := by
        rw [List.drop_drop]
        refine congrArg (fun k => file.drop k) ?_
        omega
      rw [hdd, List.take_append_drop]
    · rw [if_neg hc]
      rw [List.drop_eq_nil_of_le (by omega)]
      simp

theorem uploadChunksParts_get? (P S : Nat) (hP : 0 < P) (i : Nat) :
    (uploadChunksParts P S).get? i =
      if i * P < S then some (i * P, min ((i + 1) * P) S - i * P) else none := by
  have h := chunkLoop_get?_aux P S hP S 0 i (by omega)
  rw [uploadChunksParts]
  simpa using h

theorem uploadChunksParts_length (P S : Nat) (hP : 0 < P) :
    (uploadChunksParts P S).length = (S + P - 1) / P := by
  have h := chunkLoop_length_aux P S hP S 0 (by omega)
  rw [uploadChunksParts]
  simpa using h

/-- C1: for every file of size `S > 0` and server-assigned part size `P > 0`,
the part sequence produced by `uploadChunks` has length `⌈S / P⌉`
(`= (S + P - 1) / P` in natural-number division); the `i`-th part (0-based)
has offset `i * P`, so offsets are `0, P, 2P, ...` in strictly increasing
order; consecutive parts are byte-contiguous (next offset = offset + size);
every non-final part has size `P`; the final part has size
`S - (⌈S/P⌉ - 1) * P`; and the part sizes sum exactly to `S`. -/
theorem uploadChunks_parts_spec (P S : Nat) (hP : 0 < P) (hS : 0 < S) :
    (uploadChunksParts P S).length = (S + P - 1) / P ∧
    (∀ i, i < (uploadChunksParts P S).length →
      ((uploadChunksParts P S).get? i).map Prod.fst = some (i * P)) ∧
    (∀ i j p q, i < j →
      (uploadChunksParts P S).get? i = some p →
      (uploadChunksParts P S).get? j = some q → p.1 < q.1) ∧
    (∀ i p q, (uploadChunksParts P S).get? i = some p →
      (uploadChunksParts P S).get? (i + 1) = some q → q.1 = p.1 + p.2) ∧
    (∀ i p, i + 1 < (uploadChunksParts P S).length →
      (uploadChunksParts P S).get? i = some p → p.2 = P) ∧
    (((uploadChunksParts P S).get? ((uploadChunksParts P S).length - 1)).map
        Prod.snd = some (S - ((uploadChunksParts P S).length - 1) * P)) ∧
    ((uploadChunksParts P S).map (fun p => p.2)).sum = S := by
  have hG : ∀ i, (uploadChunksParts P S).get? i =
      if i * P < S then some (i * P, min ((i + 1) * P) S - i * P) else none :=
    uploadChunksParts_get? P S hP
  have hsome : ∀ i p, (uploadChunksParts P S).get? i = some p →
      i * P < S ∧ p = (i * P, min ((i + 1) * P) S - i * P) := by
    intro i p hp
    rw [hG i] at hp
    by_cases hlt : i * P < S
    · rw [if_pos hlt] at hp
      exact ⟨hlt, (Option.some.inj hp).symm⟩
    · rw [if_neg hlt] at hp
      exact absurd hp (by simp)
  have hlt_of_lt_len : ∀ i, i < (uploadChunksParts P S).length → i * P < S := by
    intro i hi
    by_contra hlt
    have hnone : (uploadChunksParts P S).get? i = none := by
      rw [hG i, if_neg hlt]
    rw [List.get?_eq_none] at hnone
    omega
  have hlen_of_lt : ∀ i, i * P < S → i < (uploadChunksParts P S).length := by
    intro i hi
    by_contra hge
    have hnone : (uploadChunksParts P S).get? i = none :=
      List.get?_eq_none.mpr (by omega)
    rw [hG i, if_pos hi] at hnone
    exact absurd hnone (by simp)
  refine ⟨uploadChunksParts_length P S hP, ?_, ?_, ?_, ?_, ?_, ?_⟩
  · intro i hi
    rw [hG i, if_pos (hlt_of_lt_len i hi)]
    rfl
  · intro i j p q hij hp hq
    obtain ⟨-, hp⟩ := hsome i p hp
    obtain ⟨-, hq⟩ := hsome j q hq
    rw [hp, hq]
    exact mul_lt_mul_of_pos_right hij hP
  · intro i p q hp hq
    obtain ⟨hi, hp⟩ := hsome i p hp
    obtain ⟨hj, hq⟩ := hsome (i + 1) q hq
    rw [hp, hq]
    have hs1 : (i + 1) * P = i * P + P := Nat.succ_mul i P
    simp only []
    omega
  · intro i p hi1 hp
    obtain ⟨hi, hp⟩ := hsome i p hp
    have hj : (i + 1) * P < S := hlt_of_lt_len (i + 1) hi1
    rw [hp]
    have hs1 : (i + 1) * P = i * P + P := Nat.succ_mul i P
    simp only []
    omega
  · have hlen1 : 0 < (uploadChunksParts P S).length :=
      hlen_of_lt 0 (by omega)
    set L := (uploadChunksParts P S).length with hL
    have hlast : (L - 1) * P < S := hlt_of_lt_len (L - 1) (by omega)
    have hLP : ¬(L * P < S) := by
      intro hLP
      have := hlen_of_lt L hLP
      omega
    have hidx : L - 1 + 1 = L := by omega
    rw [hG (L - 1), if_pos hlast, hidx]
    have hmin : min (L * P) S = S := by omega
    rw [hmin]
    rfl
  · have h := chunkLoop_sum_aux P S hP S 0 (by omega) (by omega)
    rw [uploadChunksParts]
    simpa using h

/-- Witness for `uploadChunks_parts_spec`: Scenario C of the spec, a 25 MiB
file with server part size 8 MiB (4 parts: 8, 8, 8, 1 MiB). -/
theorem uploadChunks_parts_spec_witness :
    uploadChunksParts (8 * 1024 * 1024) (25 * 1024 * 1024) =
      [(0, 8 * 1024 * 1024), (8 * 1024 * 1024, 8 * 1024 * 1024),
       (16 * 1024 * 1024, 8 * 1024 * 1024), (24 * 1024 * 1024, 1024 * 1024)] ∧
    ((uploadChunksParts (8 * 1024 * 1024) (25 * 1024 * 1024)).map
        (fun p => p.2)).sum = 25 * 1024 * 1024 :=
  ⟨by decide,
    (uploadChunks_parts_spec (8 * 1024 * 1024) (25 * 1024 * 1024)
      (by decide) (by decide)).2.2.2.2.2.2⟩

/-- C3: the commit-time whole-file digest of `uploadChunks` is the SHA-1 of
the byte sequence accumulated incrementally across the parts
(`uploadChunksDigestInput`), and that byte sequence is exactly the original
file, so the digest equals the SHA-1 of hashing the original file's bytes
sequentially end-to-end in one pass. Stated for an arbitrary digest function
`sha1` of the hashed byte stream (a streaming hash is a function of the
accumulated byte sequence). -/
theorem uploadChunks_digest_roundtrip (sha1 : List Nat → List Nat) (P : Nat)
    (file : List Nat) (hP : 0 < P) :
    sha1 (uploadChunksDigestInput P file) = sha1 file := by
  rw [uploadChunksDigestInput, foldl_append_eq, List.nil_append]
  refine congrArg sha1 ?_
  have h := chunkSlices_join_aux P hP file file.length 0 (by omega)
  rw [chunkSlices]
  simpa using h

/-- Witness for `uploadChunks_digest_roundtrip` at a concrete file and part
size. -/
theorem uploadChunks_digest_roundtrip_witness :
    id (uploadChunksDigestInput 2 [1, 2, 3, 4, 5]) = id [1, 2, 3, 4, 5] :=
  uploadChunks_digest_roundtrip id 2 [1, 2, 3, 4, 5] (by decide)

/-- C10: a file whose size equals the chunked-upload threshold exactly
(`20 * 1024 * 1024` bytes) takes the single-request (normal) upload path; the
chunked path is taken exactly when the size strictly exceeds the threshold
(BoxAPI.ts 599-602). -/
theorem uploadFile_threshold_boundary :
    uploadFileMethod (20 * 1024 * 1024) = UploadMethod.normal ∧
    ∀ s, uploadFileMethod s = UploadMethod.chunked ↔ FILE_SIZE_THRESHOLD < s := by
  refine ⟨by decide, ?_⟩
  intro s
  rw [uploadFileMethod]
  by_cases h : FILE_SIZE_THRESHOLD < s
  · simp [h]
  · simp [h]

theorem charsStartsWith_nil (s : List Char) : charsStartsWith s [] = true := by
  cases s <;> rfl

theorem charsStartsWith_append_right {p : List Char} :
    ∀ {s : List Char} (t : List Char), charsStartsWith s p = true →
      charsStartsWith (s ++ t) p = true := by
  induction p with
  | nil =>
    intro s t _
    exact charsStartsWith_nil (s ++ t)
  | cons b bs ih =>
    intro s t h
    cases s with
    | nil => exact absurd h (by simp [charsStartsWith])
    | cons a as =>
      simp only [charsStartsWith, Bool.and_eq_true] at h
      simp only [List.cons_append, charsStartsWith, Bool.and_eq_true]
      exact ⟨h.1, ih t h.2⟩

theorem strStartsWith_append_left {a pre : String} (x : String)
    (h : strStartsWith a pre = true) : strStartsWith (a ++ x) pre = true := by
  rw [strStartsWith, String.data_append]
  rw [strStartsWith] at h
  exact charsStartsWith_append_right x.data h

theorem with401Recovery_not_enhanced {T : Type} (ops : Nat → Outcome T)
    (refresh : Outcome Unit) (c : Nat) (e : JsError) :
    (with401Recovery ops refresh c).outcome ≠ RetryOutcome.thrownEnhanced e := by
  rw [with401Recovery.eq_def]
  cases refresh with
  | err re => simp
  | ok u =>
    cases ops (c + 1) with
    | ok t => simp
    | err e2 => simp

theorem with401Recovery_delays {T : Type} (ops : Nat → Outcome T)
    (refresh : Outcome Unit) (c : Nat) :
    (with401Recovery ops refresh c).delays = [] := by
  rw [with401Recovery.eq_def]
  cases refresh with
  | err re => rfl
  | ok u =>
    cases ops (c + 1) with
    | ok t => rfl
    | err e2 => rfl

theorem with401Recovery_raw_origin {T : Type} (ops : Nat → Outcome T)
    (refresh : Outcome Unit) (c : Nat) (e : JsError)
    (h : (with401Recovery ops refresh c).outcome = RetryOutcome.thrownRaw e) :
    refresh = Outcome.err e ∨ ∃ i, ops i = Outcome.err e := by
  rw [with401Recovery.eq_def] at h
  cases hr : refresh with
  | err re =>
    rw [hr] at h
    simp at h
    left
    rw [h]
  | ok u =>
    rw [hr] at h
    cases ho : ops (c + 1) with
    | ok t => rw [ho] at h; simp at h
    | err e2 =>
      rw [ho] at h
      simp at h
      right
      exact ⟨c + 1, by rw [ho, h]⟩

theorem withRetryGo_enhanced_origin {T : Type} (mR rD : Nat)
    (ops : Nat → Outcome T) (refresh : Outcome Unit) :
    ∀ fuel c e,
      (withRetryGo mR rD ops refresh fuel c).outcome = RetryOutcome.thrownEnhanced e →
      ∃ i raw, ops i = Outcome.err raw ∧ e = enhanceError raw := by
  intro fuel
  induction fuel with
  | zero =>
    intro c e h
    cases ho : ops c with
    | ok t => simp only [withRetryGo, ho] at h; simp at h
    | err e0 =>
      simp only [withRetryGo, ho] at h
      by_cases h401 : e0.isAxon = true ∧ e0.status = some 401
      · rw [if_pos h401] at h
        exact absurd h (with401Recovery_not_enhanced ops refresh c e)
      · rw [if_neg h401] at h
        simp at h
        exact ⟨c, e0, ho, h.symm⟩
  | succ fuel ih =>
    intro c e h
    cases ho : ops c with
    | ok t => simp only [withRetryGo, ho] at h; simp at h
    | err e0 =>
      simp only [withRetryGo, ho] at h
      by_cases h401 : e0.isAxon = true ∧ e0.status = some 401
      · rw [if_pos h401] at h
        exact absurd h (with401Recovery_not_enhanced ops refresh c e)
      · rw [if_neg h401] at h
        by_cases hnet : isNetworkError e0 = true
        · rw [if_pos hnet] at h
          exact ih (c + 1) e h
        · rw [if_neg hnet] at h
          simp at h
          exact ⟨c, e0, ho, h.symm⟩

theorem withRetryGo_raw_origin {T : Type} (mR rD : Nat)
    (ops : Nat → Outcome T) (refresh : Outcome Unit) :
    ∀ fuel c e,
      (withRetryGo mR rD ops refresh fuel c).outcome = RetryOutcome.thrownRaw e →
      refresh = Outcome.err e ∨ ∃ i, ops i = Outcome.err e := by
  intro fuel
  induction fuel with
  | zero =>
    intro c e h
    cases ho : ops c with
    | ok t => simp only [withRetryGo, ho] at h; simp at h
    | err e0 =>
      simp only [withRetryGo, ho] at h
      by_cases h401 : e0.isAxon = true ∧ e0.status = some 401
      · rw [if_pos h401] at h
        exact with401Recovery_raw_origin ops refresh c e h
      · rw [if_neg h401] at h
        simp at h
  | succ fuel ih =>
    intro c e h
    cases ho : ops c with
    | ok t => simp only [withRetryGo, ho] at h; simp at h
    | err e0 =>
      simp only [withRetryGo, ho] at h
      by_cases h401 : e0.isAxon = true ∧ e0.status = some 401
      · rw [if_pos h401] at h
        exact with401Recovery_raw_origin ops refresh c e h
      · rw [if_neg h401] at h
        by_cases hnet : isNetworkError e0 = true
        · rw [if_pos hnet] at h
          exact ih (c + 1) e h
        · rw [if_neg hnet] at h
          simp at h

theorem enhanceError_states_category (e : JsError) (c : String)
    (h : semanticCategory e = some c) :
    strStartsWith (enhanceError e).message c = true := by
  rw [semanticCategory] at h
  rw [enhanceError]
  by_cases hA : e.isAxon = true
  · rw [if_pos hA] at h ⊢
    by_cases h401 : e.status = some 401
    · rw [if_pos h401] at h ⊢
      have hc : c = "Authentication failed" := (Option.some.inj h).symm
      subst hc
      decide
    · rw [if_neg h401] at h ⊢
      by_cases h404 : e.status = some 404
      · rw [if_pos h404] at h ⊢
        have hc : c = "Resource not found" := (Option.some.inj h).symm
        subst hc
        exact strStartsWith_append_left _ (by decide)
      · rw [if_neg h404] at h ⊢
        by_cases h409 : e.status = some 409
        · rw [if_pos h409] at h ⊢
          have hc : c = "Conflict" := (Option.some.inj h).symm
          subst hc
          exact strStartsWith_append_left _ (by decide)
        · rw [if_neg h409] at h ⊢
          by_cases h403 : e.status = some 403
          · rw [if_pos h403] at h ⊢
            have hc : c = "Permission denied" := (Option.some.inj h).symm
            subst hc
            exact strStartsWith_append_left _ (by decide)
          · rw [if_neg h403] at h ⊢
            by_cases h5 : statusAtLeast500 e.status = true
            · rw [if_pos h5] at h ⊢
              have hc : c = "Box server error" := (Option.some.inj h).symm
              subst hc
              exact strStartsWith_append_left _
                (strStartsWith_append_left _
                  (strStartsWith_append_left _ (by decide)))
            · rw [if_neg h5] at h
              exact absurd h (by simp)
  · rw [if_neg hA] at h
    exact absurd h (by simp)

/-- C6 counterexample: with the default configuration, an operation that
first throws an Axon 401 (whose recovery succeeds) and then throws an Axon
404 makes `withRetry` raise the 404 error unenhanced: the raised message does
not state the semantic category "Resource not found" although the underlying
failure carries remote status 404. So not every exit path of `withRetry`
enriches the error — errors leaving the 401-recovery block are raised raw. -/
theorem withRetry_enrichment_counterexample :
    (withRetry 3 1000
        (fun i => if i = 0 then (Outcome.err axon401ce : Outcome Unit)
          else Outcome.err axon404ce)
        (Outcome.ok ())).outcome = RetryOutcome.thrownRaw axon404ce ∧
    semanticCategory axon404ce = some "Resource not found" ∧
    strStartsWith axon404ce.message "Resource not found" = false := by
  refine ⟨by decide, by decide, by decide⟩

/-- C6 amended: every error that `withRetry` raises through its final
`throw this.enhanceError(lastError)` is an enriched error derived by
`enhanceError` from a failure of the operation, and `enhanceError` makes the
message state the semantic category whenever the failure carries remote
status 401, 403, 404, 409 or 5xx; however, errors raised from inside the
401-recovery block — a failure of the recovery itself or of the operation
retried after a successful recovery — propagate raw, without enrichment
(they originate unchanged from the refresh step or from an operation
invocation). -/
theorem withRetry_error_enrichment {T : Type} (mR rD : Nat)
    (ops : Nat → Outcome T) (refresh : Outcome Unit) :
    (∀ e c, semanticCategory e = some c →
      strStartsWith (enhanceError e).message c = true) ∧
    (∀ e, (withRetry mR rD ops refresh).outcome = RetryOutcome.thrownEnhanced e →
      ∃ i raw, ops i = Outcome.err raw ∧ e = enhanceError raw) ∧
    (∀ e, (withRetry mR rD ops refresh).outcome = RetryOutcome.thrownRaw e →
      refresh = Outcome.err e ∨ ∃ i, ops i = Outcome.err e) := by
  refine ⟨enhanceError_states_category, ?_, ?_⟩
  · intro e h
    exact withRetryGo_enhanced_origin mR rD ops refresh mR 0 e h
  · intro e h
    exact withRetryGo_raw_origin mR rD ops refresh mR 0 e h

/-- Witness for `withRetry_error_enrichment`: concrete instantiation of each
part — the enriched 404 message states its category, and a concrete enhanced
exit is traced back to the operation failure that produced it. -/
theorem withRetry_error_enrichment_witness :
    strStartsWith (enhanceError axon404ce).message "Resource not found" = true ∧
    (∃ i raw, (fun _ : Nat => (Outcome.err (mkError "boom") : Outcome Unit)) i
        = Outcome.err raw ∧
      enhanceError (mkError "boom") = enhanceError raw) :=
  ⟨(withRetry_error_enrichment 3 1000 (fun _ : Nat => Outcome.ok ())
      (Outcome.ok ())).1 axon404ce "Resource not found" (by decide),
   (withRetry_error_enrichment 3 1000
      (fun _ : Nat => (Outcome.err (mkError "boom") : Outcome Unit))
      (Outcome.ok ())).2.1 (enhanceError (mkError "boom")) (by decide)⟩

theorem withRetryGo_delays_form {T : Type} (mR rD : Nat)
    (ops : Nat → Outcome T) (refresh : Outcome Unit) :
    ∀ fuel c, fuel ≤ mR →
      ∃ m, (withRetryGo mR rD ops refresh fuel c).delays =
        (List.range m).map (fun k => rD * 2 ^ (mR - fuel + k)) := by
  intro fuel
  induction fuel with
  | zero =>
    intro c hf
    refine ⟨0, ?_⟩
    cases ho : ops c with
    | ok t => simp only [withRetryGo, ho]; rfl
    | err e0 =>
      simp only [withRetryGo, ho]
      by_cases h401 : e0.isAxon = true ∧ e0.status = some 401
      · rw [if_pos h401]
        simp [with401Recovery_delays]
      · rw [if_neg h401]
        rfl
  | succ fuel ih =>
    intro c hf
    cases ho : ops c with
    | ok t => exact ⟨0, by simp only [withRetryGo, ho]; rfl⟩
    | err e0 =>
      by_cases h401 : e0.isAxon = true ∧ e0.status = some 401
      · refine ⟨0, ?_⟩
        simp only [withRetryGo, ho]
        rw [if_pos h401]
        simp [with401Recovery_delays]
      · by_cases hnet : isNetworkError e0 = true
        · obtain ⟨m, hm⟩ := ih (c + 1) (by omega)
          refine ⟨m + 1, ?_⟩
          simp only [withRetryGo, ho]
          rw [if_neg h401, if_pos hnet]
          rw [List.range_succ_eq_map, List.map_cons, List.map_map]
          simp only [Function.comp, Nat.add_zero]
          rw [hm]
          refine congrArg₂ List.cons rfl ?_
          refine List.map_congr_left ?_
          intro k _
          have hexp : mR - fuel + k = mR - (fuel + 1) + (k + 1) := by omega
          rw [hexp]
          simp [Function.comp]
        · refine ⟨0, ?_⟩
          simp only [withRetryGo, ho]
          rw [if_neg h401, if_neg hnet]
          rfl

/-- C7: the delay inserted before re-attempt for attempt number `a`
(a = 0, 1, 2, ...) is `retryDelay * 2 ^ a`: the delay sequence of every
execution is an initial segment of `retryDelay * 2 ^ 0, retryDelay * 2 ^ 1,
...`; for a positive base the delay sequence is strictly increasing; a
failure that is neither a network error nor an Axon 401 is never retried
under this branch (no delay is slept and the operation is invoked exactly
once); and with the default base 1000 ms and default `maxRetries = 3`, an
all-transient run sleeps exactly 1000, 2000, 4000 ms for attempts 0, 1, 2. -/
theorem withRetry_backoff_spec {T : Type} (mR rD : Nat) (ops : Nat → Outcome T)
    (refresh : Outcome Unit) :
    (∃ m, (withRetry mR rD ops refresh).delays =
        (List.range m).map (fun a => rD * 2 ^ a)) ∧
    (∀ a b, 0 < rD → a < b → rD * 2 ^ a < rD * 2 ^ b) ∧
    (∀ e, ops 0 = Outcome.err e → isNetworkError e = false →
      ¬(e.isAxon = true ∧ e.status = some 401) →
      (withRetry mR rD ops refresh).delays = [] ∧
      (withRetry mR rD ops refresh).calls = 1) ∧
    (withRetry 3 1000 (fun _ => (Outcome.err netErrCe : Outcome Unit))
        (Outcome.ok ())).delays = [1000, 2000, 4000] := by
  refine ⟨?_, ?_, ?_, by decide⟩
  · obtain ⟨m, hm⟩ := withRetryGo_delays_form mR rD ops refresh mR 0 (le_refl mR)
    refine ⟨m, ?_⟩
    rw [withRetry, hm]
    refine List.map_congr_left ?_
    intro k _
    have h0 : mR - mR + k = k := by omega
    rw [h0]
  · intro a b hrD hab
    have hpow : 2 ^ a < 2 ^ b := Nat.pow_lt_pow_right (by omega) hab
    exact Nat.mul_lt_mul_of_pos_left hpow hrD
  · intro e ho hnet h401
    rw [withRetry]
    cases mR with
    | zero =>
      simp only [withRetryGo, ho]
      rw [if_neg h401]
      exact ⟨rfl, rfl⟩
    | succ m =>
      simp only [withRetryGo, ho]
      rw [if_neg h401, if_neg (by simp [hnet])]
      exact ⟨rfl, rfl⟩

/-- Witness for `withRetry_backoff_spec`: a non-network, non-401 failure is
raised with no backoff sleep and a single operation invocation. -/
theorem withRetry_backoff_spec_witness :
    (withRetry 3 1000 (fun _ => (Outcome.err (mkError "boom") : Outcome Unit))
        (Outcome.ok ())).delays = [] ∧
    (withRetry 3 1000 (fun _ => (Outcome.err (mkError "boom") : Outcome Unit))
        (Outcome.ok ())).calls = 1 :=
  (withRetry_backoff_spec 3 1000
      (fun _ => (Outcome.err (mkError "boom") : Outcome Unit))
      (Outcome.ok ())).2.2.1 (mkError "boom") rfl (by decide) (by decide)

/-- C2 counterexample: in the 25 MiB / 8 MiB scenario, the first part upload
(offset 0) is issued without the `withRetry` wrapper — so it is not the case
that every individual part upload of a chunked upload is wrapped by the
resilient request executor. -/
theorem chunkedUpload_wrapping_counterexample :
    (chunkedUploadTrace (8 * 1024 * 1024) (25 * 1024 * 1024)).get? 1 =
      some (UploadCall.partUpload 0, false) := by decide

/-- C2 amended: session creation and the commit request are each individually
wrapped by the resilient request executor (`withRetry`), so transient/auth
failures during those two calls recover independently per call; but the
individual part uploads inside `uploadChunks` are not wrapped — a failure
during a part upload propagates out of the chunked upload instead of being
retried/recovered for that call. -/
theorem chunkedUpload_wrapping (P S : Nat) :
    ((chunkedUploadTrace P S).head? = some (UploadCall.sessionCreate, true)) ∧
    ((chunkedUploadTrace P S).getLast? = some (UploadCall.commit, true)) ∧
    (∀ c w, (c, w) ∈ chunkedUploadTrace P S →
      ((c = UploadCall.sessionCreate ∨ c = UploadCall.commit) → w = true) ∧
      (∀ o, c = UploadCall.partUpload o → w = false)) := by
  refine ⟨rfl, List.getLast?_concat _, ?_⟩
  intro c w hmem
  rw [chunkedUploadTrace] at hmem
  simp only [List.mem_append, List.mem_cons, List.mem_map,
    List.mem_singleton] at hmem
  rcases hmem with (h | ⟨p, hp, hpe⟩) | h | h
  · rw [Prod.mk.injEq] at h
    obtain ⟨hc, hw⟩ := h
    subst hc
    subst hw
    refine ⟨fun _ => rfl, fun o hco => ?_⟩
    simp at hco
  · rw [Prod.mk.injEq] at hpe
    obtain ⟨hc, hw⟩ := hpe
    subst hc
    subst hw
    refine ⟨fun hor => ?_, fun o _ => rfl⟩
    rcases hor with h | h <;> simp at h
  · rw [Prod.mk.injEq] at h
    obtain ⟨hc, hw⟩ := h
    subst hc
    subst hw
    refine ⟨fun _ => rfl, fun o hco => ?_⟩
    simp at hco
  · exact absurd h (List.not_mem_nil _)

/-- Witness for `chunkedUpload_wrapping` at a concrete trace entry. -/
theorem chunkedUpload_wrapping_witness :
    ((UploadCall.sessionCreate = UploadCall.sessionCreate ∨
        UploadCall.sessionCreate = UploadCall.commit) → true = true) ∧
    (∀ o, UploadCall.sessionCreate = UploadCall.partUpload o → true = false) :=
  (chunkedUpload_wrapping 4 10).2.2 UploadCall.sessionCreate true (by decide)

/-- C9: `expiredAt` monotonically advances on every successful refresh. A
refresh-token exchange is initiated either by `checkToken` once the current
time `now` has reached `expiredAt`, or by `invalidateAndRefresh` after
`expiredAt` was reset to 0; if the exchange succeeds with `expires_in > 0`
at response time `respNow ≥ now`, the new `expiredAt` is strictly greater
than the value it replaced. -/
theorem expiredAt_monotone (st : TokenCreds) (now respNow expiresIn : Nat)
    (newAccess newRefresh : String)
    (hstart : checkTokenStartsRefreshExchange st now ∨ st = invalidateReset st)
    (hclock : now ≤ respNow)
    (hpos : 0 < expiresIn) :
    st.expiredAt <
      (refreshAccessTokenSuccess st respNow expiresIn newAccess
        newRefresh).expiredAt := by
  have hle : st.expiredAt ≤ now := by
    rcases hstart with ⟨-, h⟩ | h
    · exact h
    · rw [h]
      exact Nat.zero_le now
  show st.expiredAt < respNow + expiresIn * 1000
  omega

/-- Witness for `expiredAt_monotone`: a token that expired at 5000 refreshed
at time 6000 with `expires_in = 3600`. -/
theorem expiredAt_monotone_witness :
    (⟨"at", "rt", 5000⟩ : TokenCreds).expiredAt <
      (refreshAccessTokenSuccess ⟨"at", "rt", 5000⟩ 6000 3600 "at2"
        "rt2").expiredAt :=
  expiredAt_monotone ⟨"at", "rt", 5000⟩ 5500 6000 3600 "at2" "rt2"
    (Or.inl ⟨by decide, by decide⟩) (by decide) (by decide)

theorem sfInv_init (n : Nat) : SFInv (SFInit n) := by
  unfold SFInv SFInit
  dsimp only
  refine ⟨by omega, fun _ => ⟨rfl, rfl⟩, fun h => by omega,
    fun h => by simp at h, fun i h => absurd rfl h, fun i h => by simp at h⟩

theorem sfInv_step {n : Nat} {s t : SFState n} (hs : SFInv s)
    (hst : SFStep s t) : SFInv t := by
  obtain ⟨h1, h2, h3, h4, h5, h6⟩ := hs
  cases hst with
  | entryWait i hpc hp =>
    unfold SFInv
    dsimp only
    have hex : s.exchanges = 1 := by
      rcases Nat.eq_zero_or_pos s.exchanges with h0 | h0
      · rw [(h2 h0).1] at hp
        exact absurd hp (by simp)
      · omega
    refine ⟨h1, fun h0 => by omega, h3, h4, fun j _ => hex, ?_⟩
    intro j hj
    by_cases hji : j = i
    · simp only [setPC, if_pos hji] at hj
      exact absurd hj (by simp)
    · simp only [setPC, if_neg hji] at hj
      exact h6 j hj
  | entryValid i hpc hp hv =>
    unfold SFInv
    dsimp only
    have hex : s.exchanges = 1 := h4 hv
    refine ⟨h1, fun h0 => by omega, h3, h4, fun j _ => hex, ?_⟩
    intro j hj
    by_cases hji : j = i
    · simp only [setPC, if_pos hji] at hj
      exact absurd hj (by simp)
    · simp only [setPC, if_neg hji] at hj
      exact h6 j hj
  | entryRefresh i hpc hp hv =>
    unfold SFInv
    dsimp only
    have hex : s.exchanges = 0 := by
      rcases Nat.eq_zero_or_pos s.exchanges with h0 | h0
      · exact h0
      · have h01 : s.exchanges = 1 := by omega
        rcases h3 h01 with hcontra | hcontra
        · rw [hp] at hcontra
          exact absurd hcontra (by simp)
        · rw [hv] at hcontra
          exact absurd hcontra (by simp)
    refine ⟨by omega, fun h0 => by omega, fun _ => Or.inl rfl, ?_,
      fun j _ => by omega, ?_⟩
    · intro hcontra
      rw [hv] at hcontra
      exact absurd hcontra (by simp)
    · intro j hj
      by_cases hji : j = i
      · simp only [setPC, if_pos hji] at hj
        exact absurd hj (by simp)
      · simp only [setPC, if_neg hji] at hj
        have hpost := h6 j hj
        rw [hv] at hpost
        exact absurd hpost (by simp)
  | refreshOk i hpc =>
    unfold SFInv
    dsimp only
    have hex : s.exchanges = 1 := h5 i (by rw [hpc]; simp)
    exact ⟨h1, fun h0 => by omega, fun _ => Or.inr rfl, fun _ => hex,
      fun j _ => hex, fun j _ => rfl⟩
  | saveDone i hpc =>
    unfold SFInv
    dsimp only
    have hex : s.exchanges = 1 := h5 i (by rw [hpc]; simp)
    have hv : s.tokenValid = true := h6 i hpc
    refine ⟨h1, fun h0 => by omega, fun _ => Or.inr hv, fun _ => hex,
      fun j _ => hex, ?_⟩
    intro j hj
    by_cases hji : j = i
    · simp only [setPC, if_pos hji] at hj
      exact absurd hj (by simp)
    · simp only [setPC, if_neg hji] at hj
      exact h6 j hj
  | waitWake i hpc hv =>
    unfold SFInv
    dsimp only
    have hex : s.exchanges = 1 := h4 hv
    refine ⟨h1, fun h0 => by omega, h3, h4, fun j _ => hex, ?_⟩
    intro j hj
    by_cases hji : j = i
    · simp only [setPC, if_pos hji] at hj
      exact absurd hj (by simp)
    · simp only [setPC, if_neg hji] at hj
      exact h6 j hj

theorem sfInv_reach {n : Nat} {s : SFState n} (h : SFReach s) : SFInv s := by
  induction h with
  | init => exact sfInv_init n
  | step s t hs hst ih => exact sfInv_step ih hst

/-- C4: in every interleaving of any number of concurrent callers entering
`checkToken` while the access token is expired (refresh exchange
succeeding), at most one refresh-exchange request is ever issued, and once
any caller has completed the call, exactly one has been issued: the first
caller installs the single pending refresh operation
(`tokenRefreshPromise`), and every concurrent caller finding it non-null
awaits that same pending operation instead of issuing a duplicate
exchange. -/
theorem checkToken_single_flight {n : Nat} (s : SFState n) (h : SFReach s) :
    s.exchanges ≤ 1 ∧
      (∀ i, s.pc i = CallerPC.done → s.exchanges = 1) := by
  obtain ⟨h1, -, -, -, h5, -⟩ := sfInv_reach h
  refine ⟨h1, fun i hi => h5 i ?_⟩
  rw [hi]
  simp

/-- Witness for `checkToken_single_flight` at the initial two-caller state. -/
theorem checkToken_single_flight_witness :
    (SFInit 2).exchanges ≤ 1 ∧
      (∀ i, (SFInit 2).pc i = CallerPC.done → (SFInit 2).exchanges = 1) :=
  checkToken_single_flight (SFInit 2) SFReach.init

theorem pollSyncGo_timeout (timeout interval : Nat) (obs : Nat → FsObs)
    (localPath : String) :
    ∀ fuel k,
      (∀ j, k ≤ j → j * interval < timeout →
        ∀ sz mt, obs j ≠ FsObs.present sz mt) →
      pollSyncGo timeout interval obs localPath fuel k =
        pollTimeoutStatus timeout localPath := by
  intro fuel
  induction fuel with
  | zero => intro k _; rfl
  | succ fuel ih =>
    intro k hnever
    rw [pollSyncGo]
    by_cases hk : k * interval < timeout
    · rw [if_pos hk]
      cases ho : obs k with
      | present sz mt => exact absurd ho (hnever k (le_refl k) hk sz mt)
      | absent => exact ih (k + 1) (fun j hj => hnever j (by omega))
      | errOther m => exact ih (k + 1) (fun j hj => hnever j (by omega))
    · rw [if_neg hk]

theorem smartSyncGo_timeout (timeout interval : Nat) (isFile : Bool)
    (cloudSize : Option Nat) (obs : Nat → FsObs) (localPath : String) :
    ∀ fuel k,
      (∀ j, k ≤ j → j * interval < timeout → ∀ sz mt,
        obs j = FsObs.present sz mt →
        isFile = true ∧ cloudSize ≠ none ∧ ¬(some sz = cloudSize)) →
      smartSyncGo timeout interval isFile cloudSize obs localPath fuel k =
        smartTimeoutStatus timeout localPath := by
  intro fuel
  induction fuel with
  | zero => intro k _; rfl
  | succ fuel ih =>
    intro k hnever
    rw [smartSyncGo]
    by_cases hk : k * interval < timeout
    · rw [if_pos hk]
      cases ho : obs k with
      | present sz mt =>
        obtain ⟨hf, hcs, hne⟩ := hnever k (le_refl k) hk sz mt ho
        dsimp only
        rw [if_pos (And.intro hf hcs), if_neg hne]
        exact ih (k + 1) (fun j hj => hnever j (by omega))
      | absent => exact ih (k + 1) (fun j hj => hnever j (by omega))
      | errOther m => exact ih (k + 1) (fun j hj => hnever j (by omega))
    · rw [if_neg hk]

theorem pollTimeoutStatus_contains (timeout : Nat) (localPath : String) :
    ∃ msg, (pollTimeoutStatus timeout localPath).error = some msg ∧
      strContains msg "Timeout" = true := by
  refine ⟨_, rfl, ?_⟩
  rw [strContains]
  apply charsContain_of_charsStartsWith
  have h1 : strStartsWith ("Timeout: File did not appear within " ++
      toString (timeout / 1000) ++ " seconds") "Timeout" = true := by
    apply strStartsWith_append_left
    apply strStartsWith_append_left
    decide
  rw [strStartsWith] at h1
  exact h1

theorem smartTimeoutStatus_contains (timeout : Nat) (localPath : String) :
    ∃ msg, (smartTimeoutStatus timeout localPath).error = some msg ∧
      strContains msg "Timeout" = true := by
  refine ⟨_, rfl, ?_⟩
  rw [strContains]
  apply charsContain_of_charsStartsWith
  have h1 : strStartsWith ("Timeout: File did not fully sync within " ++
      toString (timeout / 1000) ++ " seconds") "Timeout" = true := by
    apply strStartsWith_append_left
    apply strStartsWith_append_left
    decide
  rw [strStartsWith] at h1
  exact h1

theorem smartSync_timeout (timeout interval : Nat) (isFile : Bool)
    (remoteSize : Nat) (obs : Nat → FsObs) (localPath : String)
    (hnever : ∀ k, k * interval < timeout →
      syncCondMet SyncStrategy.smart isFile remoteSize (obs k) = false) :
    (smartSync timeout interval isFile remoteSize obs localPath).1 =
      smartTimeoutStatus timeout localPath := by
  rw [smartSync]
  dsimp only
  apply smartSyncGo_timeout
  intro j hj hjt sz mt hobs
  have hcond := hnever j hjt
  rw [hobs] at hcond
  simp only [syncCondMet] at hcond
  by_cases hf : isFile = true
  · rw [if_pos hf] at hcond
    refine ⟨hf, ?_, ?_⟩
    · rw [if_pos hf]
      simp
    · intro heq
      rw [if_pos hf] at heq
      have hsz : sz = remoteSize := Option.some.inj heq
      rw [hsz] at hcond
      simp at hcond
  · rw [if_neg hf] at hcond
    simp at hcond

/-- C5: for every `waitForSync` call, under any strategy, in which the
wall-clock timeout elapses before the sync condition is met (no observation
within the window satisfies the strategy's condition; for `force`, the sync
agent is running — otherwise the call returns its failure value immediately,
before any timeout can elapse), the call returns the normal result value
with `synced = false` and an error string containing "Timeout". The model's
loops return this as a value — they have no throwing exit — so the timeout
is never raised as an exception. -/
theorem waitForSync_timeout_value (strategy : SyncStrategy)
    (timeout interval : Nat) (isFile : Bool) (remoteSize : Nat)
    (isRunning : Bool) (obs : Nat → FsObs) (localPath : String)
    (hint : 0 < interval)
    (hrun : strategy = SyncStrategy.force → isRunning = true)
    (hnever : ∀ k, k * interval < timeout →
      syncCondMet strategy isFile remoteSize (obs k) = false) :
    (waitForSync strategy timeout interval isFile remoteSize isRunning obs
        localPath).synced = false ∧
    ∃ msg,
      (waitForSync strategy timeout interval isFile remoteSize isRunning obs
          localPath).error = some msg ∧
      strContains msg "Timeout" = true := by
  cases strategy with
  | poll =>
    have hres : waitForSync SyncStrategy.poll timeout interval isFile
        remoteSize isRunning obs localPath =
        pollTimeoutStatus timeout localPath := by
      show pollSync timeout interval obs localPath = _
      rw [pollSync]
      apply pollSyncGo_timeout
      intro j hj hjt sz mt hobs
      have hcond := hnever j hjt
      rw [hobs] at hcond
      simp [syncCondMet] at hcond
    rw [hres]
    exact ⟨rfl, pollTimeoutStatus_contains timeout localPath⟩
  | smart =>
    have hres : waitForSync SyncStrategy.smart timeout interval isFile
        remoteSize isRunning obs localPath =
        smartTimeoutStatus timeout localPath := by
      show (smartSync timeout interval isFile remoteSize obs localPath).1 = _
      exact smartSync_timeout timeout interval isFile remoteSize obs
        localPath hnever
    rw [hres]
    exact ⟨rfl, smartTimeoutStatus_contains timeout localPath⟩
  | force =>
    have hr : isRunning = true := hrun rfl
    have hres : waitForSync SyncStrategy.force timeout interval isFile
        remoteSize isRunning obs localPath =
        smartTimeoutStatus timeout localPath := by
      show (if isRunning = true then
          (smartSync timeout interval isFile remoteSize obs localPath).1
        else ⟨false, localPath, some "Box Drive is not running", none,
          none⟩) = _
      rw [if_pos hr]
      exact smartSync_timeout timeout interval isFile remoteSize obs
        localPath (fun k hk => hnever k hk)
    rw [hres]
    exact ⟨rfl, smartTimeoutStatus_contains timeout localPath⟩

/-- Witness for `waitForSync_timeout_value`: Scenario E, the file never
appears under the poll strategy. -/
theorem waitForSync_timeout_value_witness :
    (waitForSync SyncStrategy.poll 2500 1000 true 1024 true
        (fun _ => FsObs.absent) "p").synced = false ∧
    ∃ msg,
      (waitForSync SyncStrategy.poll 2500 1000 true 1024 true
          (fun _ => FsObs.absent) "p").error = some msg ∧
      strContains msg "Timeout" = true :=
  waitForSync_timeout_value SyncStrategy.poll 2500 1000 true 1024 true
    (fun _ => FsObs.absent) "p" (by decide) (fun _ => rfl) (fun k _ => rfl)

theorem smartSyncGo_file_cases (timeout interval remoteSize : Nat)
    (obs : Nat → FsObs) (localPath : String) :
    ∀ fuel k,
      smartSyncGo timeout interval true (some remoteSize) obs localPath
          fuel k = smartTimeoutStatus timeout localPath ∨
      ∃ j mt, k ≤ j ∧ j * interval < timeout ∧
        obs j = FsObs.present remoteSize mt ∧
        smartSyncGo timeout interval true (some remoteSize) obs localPath
            fuel k = ⟨true, localPath, none, some mt, some remoteSize⟩ := by
  intro fuel
  induction fuel with
  | zero => intro k; left; rfl
  | succ fuel ih =>
    intro k
    rw [smartSyncGo]
    by_cases hk : k * interval < timeout
    · rw [if_pos hk]
      cases ho : obs k with
      | present sz mt =>
        dsimp only
        rw [if_pos (And.intro rfl (by simp))]
        by_cases hsz : some sz = some remoteSize
        · rw [if_pos hsz]
          right
          have hszz : sz = remoteSize := Option.some.inj hsz
          exact ⟨k, mt, le_refl k, hk, by rw [ho, hszz], by rw [hszz]⟩
        · rw [if_neg hsz]
          rcases ih (k + 1) with h | ⟨j, mt', hj, hjt, hobs, heq⟩
          · left
            exact h
          · right
            exact ⟨j, mt', by omega, hjt, hobs, heq⟩
      | absent =>
        dsimp only
        rcases ih (k + 1) with h | ⟨j, mt', hj, hjt, hobs, heq⟩
        · left
          exact h
        · right
          exact ⟨j, mt', by omega, hjt, hobs, heq⟩
      | errOther m =>
        dsimp only
        rcases ih (k + 1) with h | ⟨j, mt', hj, hjt, hobs, heq⟩
        · left
          exact h
        · right
          exact ⟨j, mt', by omega, hjt, hobs, heq⟩
    · rw [if_neg hk]
      left
      rfl

theorem smartSyncGo_folder_present (timeout interval : Nat)
    (obs : Nat → FsObs) (localPath : String) :
    ∀ fuel k j sz mt, k ≤ j → j - k < fuel → j * interval < timeout →
      obs j = FsObs.present sz mt →
      (smartSyncGo timeout interval false none obs localPath
          fuel k).synced = true := by
  intro fuel
  induction fuel with
  | zero =>
    intro k j sz mt hkj hfuel hjt hobs
    omega
  | succ fuel ih =>
    intro k j sz mt hkj hfuel hjt hobs
    rw [smartSyncGo]
    have hk : k * interval < timeout := by
      have hmul : k * interval ≤ j * interval :=
        Nat.mul_le_mul_right interval hkj
      omega
    rw [if_pos hk]
    cases ho : obs k with
    | present sz0 mt0 =>
      dsimp only
      rw [if_neg (by simp)]
    | absent =>
      dsimp only
      have hklt : k < j := by
        rcases Nat.lt_or_ge k j with h | h
        · exact h
        · have hkeq : k = j := by omega
          rw [hkeq, hobs] at ho
          exact absurd ho (by simp)
      exact ih (k + 1) j sz mt (by omega) (by omega) hjt hobs
    | errOther m =>
      dsimp only
      have hklt : k < j := by
        rcases Nat.lt_or_ge k j with h | h
        · exact h
        · have hkeq : k = j := by omega
          rw [hkeq, hobs] at ho
          exact absurd ho (by simp)
      exact ih (k + 1) j sz mt (by omega) (by omega) hjt hobs

/-- C8: under strategy smart on a file, the remote size is fetched exactly
once up front (one `getFileInfo` call), and `synced = true` is only ever
returned at an observation whose local size equals the remote size exactly:
the reported size is the remote size and some polled observation had exactly
that size — an observation at any other size is never reported as synced.
For a folder no size is fetched and existence alone suffices: any present
observation within the window yields `synced = true`. -/
theorem smartSync_smart_guard (timeout interval remoteSize : Nat)
    (obs : Nat → FsObs) (localPath : String) :
    (smartSync timeout interval true remoteSize obs localPath).2 = 1 ∧
    ((smartSync timeout interval true remoteSize obs localPath).1.synced =
        true →
      (smartSync timeout interval true remoteSize obs localPath).1.size =
          some remoteSize ∧
      ∃ j mt, j * interval < timeout ∧
        obs j = FsObs.present remoteSize mt) ∧
    (∀ j sz mt, 0 < interval → j * interval < timeout →
      obs j = FsObs.present sz mt →
      (smartSync timeout interval false remoteSize obs localPath).1.synced =
          true ∧
      (smartSync timeout interval false remoteSize obs localPath).2 = 0) := by
  refine ⟨rfl, ?_, ?_⟩
  · intro h
    have hif : (if (true : Bool) = true then some remoteSize else none) =
        some remoteSize := rfl
    have hcases := smartSyncGo_file_cases timeout interval remoteSize obs
      localPath (timeout + 1) 0
    rcases hcases with hc | ⟨j, mt, hj, hjt, hobs, heq⟩
    · rw [smartSync] at h
      dsimp only at h
      rw [hif, hc] at h
      simp [smartTimeoutStatus] at h
    · refine ⟨?_, j, mt, hjt, hobs⟩
      rw [smartSync]
      dsimp only
      rw [hif, heq]
  · intro j sz mt hint hjt hobs
    refine ⟨?_, rfl⟩
    rw [smartSync]
    dsimp only
    have hjf : j - 0 < timeout + 1 := by
      have hj1 : j * 1 ≤ j * interval := Nat.mul_le_mul_left j hint
      omega
    exact smartSyncGo_folder_present timeout interval obs localPath
      (timeout + 1) 0 j sz mt (Nat.zero_le j) hjf hjt hobs

/-- Witness for `smartSync_smart_guard`: Scenario D, remote size 1024, local
file observed at 512 then 1024 — synced only at the 1024 observation. -/
theorem smartSync_smart_guard_witness :
    (smartSync 30000 1000 true 1024 scenarioDObs "p").1.size = some 1024 ∧
    ∃ j mt, j * 1000 < 30000 ∧ scenarioDObs j = FsObs.present 1024 mt :=
  (smartSync_smart_guard 30000 1000 1024 scenarioDObs "p").2.1 (by decide)

end FsBoxSync
